import Mathlib

/-!
Verification development for the release-note aggregator.

The Rust sources (src/main.rs, src/helpers.rs) are shallowly embedded here.
Rust strings are modelled as `List Char` (UTF-8 byte order coincides with
code-point order, so Rust's byte-lexicographic `str::cmp` is the
lexicographic order on `List Char`).  Rust `HashMap`s are modelled as
association lists; wherever the program's observable output depends on a
hash map's (arbitrary) iteration order, the model takes that order as an
explicit argument, constrained to be a permutation of the keys.
Rust `panic!`/`unwrap` aborts are modelled as an `Except` error of a
distinguished `unwrapPanic` kind, separate from the `anyhow` error returns.
-/

/-- Rust `&str` / `String` contents, modelled as the list of its chars. -/
abbrev Str := List Char

/-- Common whitespace characters, modelling `char::is_whitespace` and the
regex class `\s` (restricted to the ASCII whitespace range; the inputs of
this program are ASCII markdown and timestamps). -/
def isWs (c : Char) : Bool :=
  c = ' ' ∨ c = '\t' ∨ c = '\n' ∨ c = '\r' ∨ c = '\x0b' ∨ c = '\x0c'

/-- Drop trailing whitespace, the right half of Rust `str::trim`. -/
def trimTrailing (l : Str) : Str := (l.reverse.dropWhile isWs).reverse

/-- Rust `str::trim`: drop leading and trailing whitespace. -/
def trimStr (l : Str) : Str := trimTrailing (l.dropWhile isWs)

/-- Rust `str::split(sep)`: splits at every separator occurrence, keeping
empty pieces; always returns at least one piece. -/
def splitOnChar (sep : Char) : Str → List Str
  | [] => [[]]
  | c :: cs =>
    if c = sep then [] :: splitOnChar sep cs
    else
      match splitOnChar sep cs with
      | s :: ss => (c :: s) :: ss
      | [] => [[c]]

/-- Strip one trailing carriage return, as Rust `str::lines` does per line. -/
def stripTrailingCR (l : Str) : Str :=
  if l.getLast? = some '\r' then l.dropLast else l

/-- Rust `str::lines`: split on newline, with no trailing empty line when the
text ends in a newline (and none at all for the empty text). -/
def rustLines (s : Str) : List Str :=
  let parts := splitOnChar '\n' s
  (if parts.getLast? = some [] then parts.dropLast else parts).map stripTrailingCR

/-- ASCII decimal digit test (the regex class `\d` and `char::is_ascii_digit`
as used on the program's version/timestamp inputs). -/
def isDigitCh (c : Char) : Bool := '0' ≤ c ∧ c ≤ '9'

/-- Numeric value of an ASCII digit. -/
def digVal (c : Char) : Nat := c.toNat - '0'.toNat

/-- Decimal value of a digit string. -/
def digitsVal (s : Str) : Nat := s.foldl (fun a c => 10 * a + digVal c) 0

/-- Read exactly `n` decimal digits from the front; yields their value and
the remaining input. -/
def readDigits (n : Nat) (s : Str) : Option (Nat × Str) :=
  let pre := s.take n
  if pre.length = n ∧ pre.all isDigitCh then some (digitsVal pre, s.drop n) else none

/-- Consume one expected character. -/
def expectCh (c : Char) : Str → Option Str
  | x :: xs => if x = c then some xs else none
  | [] => none

/-- Gregorian leap-year rule. -/
def isLeap (y : Nat) : Bool := y % 4 = 0 ∧ (y % 100 ≠ 0 ∨ y % 400 = 0)

/-- Days in a calendar month. -/
def daysInMonth (m : Nat) (leap : Bool) : Nat :=
  if m = 1 ∨ m = 3 ∨ m = 5 ∨ m = 7 ∨ m = 8 ∨ m = 10 ∨ m = 12 then 31
  else if m = 4 ∨ m = 6 ∨ m = 9 ∨ m = 11 then 30
  else if leap then 29 else 28

/-- Day number of a proleptic-Gregorian civil date, with day 0 at 1970-01-01
(the standard days-from-civil computation; years are shifted by 400 so all
intermediate arithmetic stays in `Nat`). -/
def daysFromCivil (y m d : Nat) : Int :=
  let yy := y + 400
  let y2 := if m ≤ 2 then yy - 1 else yy
  let era := y2 / 400
  let yoe := y2 - era * 400
  let mp := (m + 9) % 12
  let doy := (153 * mp + 2) / 5 + (d - 1)
  let doe := yoe * 365 + yoe / 4 - yoe / 100 + doy
  ((era * 146097 + doe : Nat) : Int) - 146097 - 719468

/-- Civil date of a day number (inverse of `daysFromCivil` on the dates this
program can parse, i.e. years 0000-9999 from March of year 0 on). -/
def civilFromDays (d : Int) : Nat × Nat × Nat :=
  let z := (d + 719468).toNat
  let era := z / 146097
  let doe := z % 146097
  let yoe := (doe - doe / 1460 + doe / 36524 - doe / 146096) / 365
  let y := yoe + era * 400
  let doy := doe - (365 * yoe + yoe / 4 - yoe / 100)
  let mp := (5 * doy + 2) / 153
  let dd := doy - (153 * mp + 2) / 5 + 1
  let m := if mp < 10 then mp + 3 else mp - 9
  (if m ≤ 2 then y + 1 else y, m, dd)

/-- Optional fractional-second part `.d+`; yields nanoseconds (truncated to
nine digits, as chrono does) and the rest of the input. -/
def parseFrac (s : Str) : Option (Nat × Str) :=
  match s with
  | '.' :: rest =>
    let ds := rest.takeWhile isDigitCh
    if ds = [] then none
    else
      let nine := ds.take 9
      some (digitsVal nine * 10 ^ (9 - nine.length), rest.drop ds.length)
  | _ => some (0, s)

/-- UTC offset suffix: `Z`/`z` or `±HH:MM`; yields the offset in seconds. -/
def parseOffset (s : Str) : Option Int :=
  match s with
  | ['Z'] => some 0
  | ['z'] => some 0
  | c :: rest =>
    if c = '+' ∨ c = '-' then
      match readDigits 2 rest with
      | some (oh, r1) =>
        match expectCh ':' r1 with
        | some r2 =>
          match readDigits 2 r2 with
          | some (om, r3) =>
            if r3 = [] ∧ oh ≤ 23 ∧ om ≤ 59 then
              some (if c = '-' then -((oh * 3600 + om * 60 : Nat) : Int)
                    else ((oh * 3600 + om * 60 : Nat) : Int))
            else none
          | none => none
        | none => none
      | none => none
    else none
  | [] => none

/-- Models `chrono::DateTime::parse_from_rfc3339` followed by `.naive_utc()`:
parses `YYYY-MM-DDTHH:MM:SS[.frac](Z|±HH:MM)` with calendar validation and
yields the UTC instant as nanoseconds since 1970-01-01T00:00:00. -/
def parseRFC3339 (s : Str) : Option Int := do
  let (y, r) ← readDigits 4 s
  let r ← expectCh '-' r
  let (mo, r) ← readDigits 2 r
  let r ← expectCh '-' r
  let (d, r) ← readDigits 2 r
  let r ← match r with
          | c :: rest => if c = 'T' ∨ c = 't' then some rest else none
          | [] => none
  let (h, r) ← readDigits 2 r
  let r ← expectCh ':' r
  let (mi, r) ← readDigits 2 r
  let r ← expectCh ':' r
  let (sec, r) ← readDigits 2 r
  let (nanos, r) ← parseFrac r
  let off ← parseOffset r
  if 1 ≤ mo ∧ mo ≤ 12 ∧ 1 ≤ d ∧ d ≤ daysInMonth mo (isLeap y) ∧
     h ≤ 23 ∧ mi ≤ 59 ∧ sec ≤ 59 then
    some ((daysFromCivil y mo d * 86400 + ((h * 3600 + mi * 60 + sec : Nat) : Int) - off)
            * 1000000000 + (nanos : Int))
  else none

/-- Nanoseconds per civil day. -/
def nanosPerDay : Int := 86400 * 1000000000

/-- Civil day number of a UTC instant: models `.naive_utc().date()`. -/
def dateOfNanos (t : Int) : Int := Int.ediv t nanosPerDay

/-- Decimal digits of a natural number. -/
def natToDec (n : Nat) : Str := Nat.toDigits 10 n

/-- Left-pad with zeroes to a given width. -/
def padZero (w : Nat) (s : Str) : Str := List.replicate (w - s.length) '0' ++ s

/-- Models chrono's `date.format("%Y-%m-%d")` on a civil day number. -/
def formatYmd (d : Int) : Str :=
  let c := civilFromDays d
  padZero 4 (natToDec c.1) ++ '-' :: (padZero 2 (natToDec c.2.1) ++ '-' :: padZero 2 (natToDec c.2.2))

/-- One GitHub release record (struct `Release` in src/main.rs). -/
structure Release where
  id : Nat
  tag_name : Str
  name : Option Str
  body : Option Str
  published_at : Str
  prerelease : Bool
deriving DecidableEq

/-- The failure channel of the embedded program.  `tagNotFound` and
`missingTags` model the `anyhow` errors constructed in
`filter_releases_by_range` / `filter_releases_by_tags` (carrying the tag
data the message is formatted from); `unwrapPanic` models a Rust panic
(an `unwrap` on a failed date parse), which aborts the run without
returning a tagged error value. -/
inductive AggError where
  | tagNotFound (tag : Str)
  | missingTags (tags : List Str)
  | unwrapPanic (msg : Str)
deriving DecidableEq

instance {ε α : Type} [DecidableEq ε] [DecidableEq α] : DecidableEq (Except ε α) := fun x y =>
  match x, y with
  | .ok a, .ok b => decidable_of_iff (a = b) (by simp)
  | .error a, .error b => decidable_of_iff (a = b) (by simp)
  | .ok _, .error _ => isFalse (by simp)
  | .error _, .ok _ => isFalse (by simp)

/-- Insert into a sorted list before the first element `y` with `le x y`.
Together with `sortLe` this models Rust's stable `slice::sort_by` given the
comparator's is-not-Greater relation `le`: ties keep their input order, and
a structural definition lets concrete runs reduce inside the kernel. -/
def insertLe {α : Type} (le : α → α → Bool) (x : α) : List α → List α
  | [] => [x]
  | y :: ys => if le x y then x :: y :: ys else y :: insertLe le x ys

/-- Stable insertion sort by the boolean relation `le` (see `insertLe`). -/
def sortLe {α : Type} (le : α → α → Bool) : List α → List α
  | [] => []
  | x :: xs => insertLe le x (sortLe le xs)

/-- The message of the panic raised by `unwrap()` on a failed
`parse_from_rfc3339` (the exact text is the standard unwrap message; no
theorem below depends on it). -/
def panicDateMsg : Str := "called Result::unwrap() on an Err value".toList

/-- Sort key of a release for the date sorts: its parsed publish instant.
The `getD` default is never reached on the non-panicking paths (all dates
parse there); on length `<=` 1 lists the comparator is never invoked. -/
def dateKey (r : Release) : Int := (parseRFC3339 r.published_at).getD 0

/-- Comparator of the two `sort_by` date sorts (newest first):
`le a b` iff `date_b.cmp(&date_a)` is not `Greater`. -/
def dateDescLE (a b : Release) : Bool := decide (dateKey b ≤ dateKey a)

/-- Models the `sort_by` on lines 222-231 / 323-331 of src/main.rs, whose
comparator calls `parse_from_rfc3339(..).unwrap()` on both arguments: with
two or more elements every element is compared at least once, so any
unparseable `published_at` panics; with at most one element the comparator
never runs and the list is returned as is. -/
def sort_by_date_desc (l : List Release) : Except AggError (List Release) :=
  if 2 ≤ l.length ∧ l.any (fun r => (parseRFC3339 r.published_at).isNone)
  then .error (.unwrapPanic panicDateMsg)
  else .ok (sortLe dateDescLE l)

/-- `releases.iter().find(|r| r.tag_name == tag)` in `filter_releases_by_tags`. -/
def find_release (rs : List Release) (tag : Str) : Option Release :=
  rs.find? (fun r => r.tag_name = tag)

/-- The tags the resolution loop of `filter_releases_by_tags` pushes onto
`missing_tags`, in input order. -/
def missing_tags_of (rs : List Release) (tags : List Str) : List Str :=
  tags.filter (fun t => (find_release rs t).isNone)

/-- The releases the resolution loop of `filter_releases_by_tags` pushes onto
`filtered_releases`, in input order (duplicate tags resolve independently). -/
def resolved_of (rs : List Release) (tags : List Str) : List Release :=
  tags.filterMap (find_release rs)

/-- Models `filter_releases_by_tags` (src/main.rs lines 300-335): resolve
every tag, fail with the whole missing list if any is absent, otherwise sort
the resolved records by publish date, newest first. -/
def filter_releases_by_tags (rs : List Release) (tags : List Str) :
    Except AggError (List Release) :=
  if missing_tags_of rs tags ≠ [] then .error (.missingTags (missing_tags_of rs tags))
  else sort_by_date_desc (resolved_of rs tags)

/-- `releases.iter().position(|r| r.tag_name == tag)`: index of the first
record with the given tag. -/
def position (tag : Str) : List Release → Option Nat
  | [] => none
  | r :: rs => if r.tag_name = tag then some 0 else (position tag rs).map (· + 1)

/-- The `enumerate().filter(..).map(..)` slice of `filter_releases_by_range`
for the two-sided case: indices between `lo` and `hi` inclusive. -/
def slice_between (rs : List Release) (lo hi : Nat) : List Release :=
  (rs.enum.filter (fun p => lo ≤ p.1 ∧ p.1 ≤ hi)).map (·.2)

/-- Models `filter_releases_by_range` (src/main.rs lines 238-298): with both
tags, the inclusive positional slice between them in input order; with one
tag, the slice from (resp. to) its position; with neither, the input
unchanged.  A missing tag aborts with its not-found error (start checked
first). -/
def filter_releases_by_range (rs : List Release) (start_tag end_tag : Option Str) :
    Except AggError (List Release) :=
  match start_tag, end_tag with
  | some s, some e =>
    match position s rs, position e rs with
    | some si, some ei =>
      let lo := if si ≤ ei then si else ei
      let hi := if si ≤ ei then ei else si
      .ok (slice_between rs lo hi)
    | none, _ => .error (.tagNotFound s)
    | some _, none => .error (.tagNotFound e)
  | some s, none =>
    match position s rs with
    | some si => .ok ((rs.enum.filter (fun p => si ≤ p.1)).map (·.2))
    | none => .error (.tagNotFound s)
  | none, some e =>
    match position e rs with
    | some ei => .ok ((rs.enum.filter (fun p => p.1 ≤ ei)).map (·.2))
    | none => .error (.tagNotFound e)
  | none, none => .ok rs

/-- Models lines 212-235 of `fetch_all_releases` (the post-HTTP processing):
drop prereleases unless they are included, then sort by publish date,
newest first (with the same unwrap-panic comparator). -/
def fetch_filter_sort (releases : List Release) (include_prereleases : Bool) :
    Except AggError (List Release) :=
  let filtered := if !include_prereleases then releases.filter (fun r => !r.prerelease)
                  else releases
  sort_by_date_desc filtered

/-- The implicit section name. -/
def uncategorizedName : Str := "Uncategorized".toList

/-- The heading regex `^(#{1,6})\s+(.+)$` of `parse_release_notes`: one to
six leading `#`, at least one whitespace, then at least one further
character; the captured heading name is the trimmed remainder.  (When the
remainder is all whitespace of length at least two, backtracking makes
group 2 its last character, which trims to the empty name - `trimStr rest`
covers both cases.) -/
def headingName? (line : Str) : Option Str :=
  let k := (line.takeWhile (· = '#')).length
  let rest := line.drop k
  if 1 ≤ k ∧ k ≤ 6 ∧ 2 ≤ rest.length ∧ isWs (rest.headD 'x') then some (trimStr rest)
  else none

/-- `sections.insert(name, Vec::new())` guarded by `contains_key`: register a
section key once, keeping the association list's existing entries. -/
def insertSection (name : Str) (acc : List (Str × List Str)) : List (Str × List Str) :=
  if acc.any (fun p => p.1 = name) then acc else acc ++ [(name, [])]

/-- Append a content line to the named section's list. -/
def appendToSection (name : Str) (line : Str) (acc : List (Str × List Str)) :
    List (Str × List Str) :=
  acc.map (fun p => if p.1 = name then (p.1, p.2 ++ [line]) else p)

/-- The line scan of `parse_release_notes`: heading lines switch the current
section (registering it), non-blank other lines are appended verbatim to the
current section, blank lines are dropped. -/
def parseLines : List Str → Str → List (Str × List Str) → List (Str × List Str)
  | [], _, acc => acc
  | l :: ls, cur, acc =>
    match headingName? l with
    | some h => parseLines ls h (insertSection h acc)
    | none =>
      if trimStr l ≠ [] then parseLines ls cur (appendToSection cur l acc)
      else parseLines ls cur acc

/-- Models `parse_release_notes` (src/main.rs lines 337-364).  The `HashMap`
is carried as an association list in insertion order (the map itself is
unordered; every consumer either re-sorts the keys or is per-key).  The
final `retain` drops sections with no content. -/
def parse_release_notes (body : Str) : List (Str × List Str) :=
  (parseLines (rustLines body) uncategorizedName [(uncategorizedName, [])]).filter
    (fun p => p.2 ≠ [])

/-- One entry of the version-separated merge (struct `ReleaseNoteItem`):
a content line, the tag it came from, and that release's civil publish
date. -/
structure ReleaseNoteItem where
  content : Str
  version : Str
  date : Int
deriving DecidableEq

/-- The union of section names over all releases with a body (the
`known_sections` HashSet of both mergers), as a duplicate-free list; its
order is arbitrary in the source and canonical here (every consumer
re-sorts or is per-key). -/
def section_names_of (rs : List Release) : List Str :=
  (rs.flatMap (fun r => match r.body with
    | some b => (parse_release_notes b).map (·.1)
    | none => [])).dedup

/-- The per-release data the second pass of `merge_release_notes` consumes:
for each release with a body, in order, its tag, parsed civil publish date
and parsed sections; the first release whose `published_at` does not parse
panics (the `unwrap` on line 391-393). -/
def parsed_bodies : List Release → Except AggError (List (Str × Int × List (Str × List Str)))
  | [] => .ok []
  | r :: rest =>
    match r.body with
    | none => parsed_bodies rest
    | some b =>
      match parseRFC3339 r.published_at with
      | none => .error (.unwrapPanic panicDateMsg)
      | some t =>
        (parsed_bodies rest).map (fun l => (r.tag_name, dateOfNanos t, parse_release_notes b) :: l)

/-- The items one parsed release contributes to one section bucket, in
source-line order. -/
def release_items (sec tag : Str) (d : Int) (sections : List (Str × List Str)) :
    List ReleaseNoteItem :=
  ((sections.filter (fun p => p.1 = sec)).flatMap (·.2)).map (fun c => ⟨c, tag, d⟩)

/-- Models `merge_release_notes` (src/main.rs lines 366-417): buckets keyed
by the union of section names, each bucket holding every contributing
release's items in release order (no deduplication).  Within one bucket this
matches the source's push order; the bucket map itself is unordered in the
source and carried here keyed in `section_names_of` order. -/
def merge_release_notes (rs : List Release) :
    Except AggError (List (Str × List ReleaseNoteItem)) :=
  (parsed_bodies rs).map (fun entries =>
    (section_names_of rs).map (fun sec =>
      (sec, entries.flatMap (fun e => release_items sec e.1 e.2.1 e.2.2))))

/-- One entry of the heading-deduplicating merge (struct
`MergedHeadingItem`): a trimmed content string and the version tags that
produced it, one entry per occurrence. -/
structure MergedHeadingItem where
  content : Str
  sources : List Str
deriving DecidableEq

/-- All (trimmed content, tag) occurrences of one section across the
releases, in release then line order; this is the order the `content_map`
accumulation of `merge_release_notes_by_heading` pushes tags in. -/
def section_occurrences (rs : List Release) (sec : Str) : List (Str × Str) :=
  rs.flatMap (fun r => match r.body with
    | some b =>
      ((parse_release_notes b).filter (fun p => p.1 = sec)).flatMap
        (fun p => p.2.map (fun item => (trimStr item, r.tag_name)))
    | none => [])

/-- The comparator of the third-pass sort of `merge_release_notes_by_heading`
as a `sortLe` precondition: `le a b` iff
`b.sources.len().cmp(&a.sources.len())` then `a.content.cmp(&b.content)` is
not `Greater` - more source entries first, lexically smaller content first
on ties. -/
def heading_item_le (a b : MergedHeadingItem) : Bool :=
  decide (b.sources.length < a.sources.length) ||
    (decide (b.sources.length = a.sources.length) && decide (a.content ≤ b.content))

/-- The sorted item list of one section of
`merge_release_notes_by_heading`: one item per distinct trimmed content,
with its tag occurrences, sorted by the third-pass comparator.  The
pre-sort order is the unordered `content_map`'s iteration order in the
source; since distinct items never tie (their contents differ), the sorted
result is independent of it and the canonical pre-sort order used here is
immaterial. -/
def merged_heading_items (rs : List Release) (sec : Str) : List MergedHeadingItem :=
  let occs := section_occurrences rs sec
  sortLe heading_item_le ((occs.map (·.1)).dedup.map (fun c =>
    MergedHeadingItem.mk c (occs.filterMap (fun q => if q.1 = c then some q.2 else none))))

/-- Models `merge_release_notes_by_heading` (src/main.rs lines 426-508):
no date is ever parsed here, so the merge is total. -/
def merge_release_notes_by_heading (rs : List Release) :
    List (Str × List MergedHeadingItem) :=
  (section_names_of rs).map (fun sec => (sec, merged_heading_items rs sec))

/-- Models `extract_version` (src/helpers.rs lines 61-68): the regex
`^[vV]?(.+)$` strips one leading `v`/`V` when at least one character (none
of them a newline, which `.` cannot match) follows; otherwise the tag is
returned unchanged. -/
def extract_version (t : Str) : Str :=
  match t with
  | c :: rest =>
    if (c = 'v' ∨ c = 'V') ∧ rest ≠ [] ∧ ¬ rest.contains '\n' then rest else t
  | [] => t

/-- A character of a semver prerelease/build identifier: the regex class
`[0-9A-Za-z-]`. -/
def isIdentChar (c : Char) : Bool := isDigitCh c || c.isAlpha || c = '-'

/-- A dot-separated identifier sequence `[0-9A-Za-z-]+(\.[0-9A-Za-z-]+)*`. -/
def checkDotted (s : Str) : Bool :=
  (splitOnChar '.' s).all (fun p => !p.isEmpty && p.all isIdentChar)

/-- The optional `-prerelease` / `+buildmetadata` tail of the semver regex.
Identifier characters exclude `+`, so the build part, when present, starts
at the first `+`. -/
def checkSuffix (s : Str) : Bool :=
  match s with
  | [] => true
  | c :: rest =>
    if c = '-' then
      match rest.dropWhile (· ≠ '+') with
      | [] => checkDotted rest
      | '+' :: build => checkDotted (rest.takeWhile (· ≠ '+')) && checkDotted build
      | _ :: _ => false
    else if c = '+' then checkDotted rest
    else false

/-- The capture groups of the semver regex
`^(\d+)\.(\d+)\.(\d+)(?:-(...))?(?:\+(...))?$` of `is_semver`
(src/helpers.rs line 156): the three digit-run components and the remaining
suffix.  `none` iff the regex does not match. -/
structure SemverParts where
  major : Str
  minor : Str
  patch : Str
  suffix : Str
deriving DecidableEq

/-- Parse a string against the semver regex grammar, returning its capture
structure. -/
def semverParts? (s : Str) : Option SemverParts :=
  let d1 := s.takeWhile isDigitCh
  match s.dropWhile isDigitCh with
  | c1 :: r1 =>
    if c1 = '.' then
      let d2 := r1.takeWhile isDigitCh
      match r1.dropWhile isDigitCh with
      | c2 :: r2 =>
        if c2 = '.' then
          let d3 := r2.takeWhile isDigitCh
          let suf := r2.dropWhile isDigitCh
          if !d1.isEmpty && !d2.isEmpty && !d3.isEmpty && checkSuffix suf then
            some ⟨d1, d2, d3, suf⟩
          else none
        else none
      | [] => none
    else none
  | [] => none

/-- The numeric MAJOR.MINOR.PATCH triple of a tag under the semver grammar
(no `v` stripping); used to state claims about "equal numeric components". -/
def semverTriple? (s : Str) : Option (Nat × Nat × Nat) :=
  (semverParts? s).map (fun p => (digitsVal p.major, digitsVal p.minor, digitsVal p.patch))

/-- The `v`/`V` strip at the top of `is_semver` (src/helpers.rs lines
150-154): `&tag[1..]` whenever the tag starts with `v` or `V`. -/
def stripV (t : Str) : Str :=
  match t with
  | c :: rest => if c = 'v' ∨ c = 'V' then rest else t
  | [] => t

/-- Models `is_semver` (src/helpers.rs lines 149-158). -/
def is_semver (tag : Str) : Bool := (semverParts? (stripV tag)).isSome

/-- Models `str::parse::<u32>().unwrap_or(0)` as used in `compare_semver`:
an optional leading `+`, then a nonempty all-digit string whose value fits
in 32 bits; anything else (including overflow) reads as 0. -/
def rustParseU32 (s : Str) : Nat :=
  let s' := if s.headD ' ' = '+' then s.tail else s
  if !s'.isEmpty && s'.all isDigitCh then
    if digitsVal s' < 2 ^ 32 then digitsVal s' else 0
  else 0

/-- The `for i in 0..3` loop of `compare_semver`, comparing the parsed
dot-components; the length-comparison branch fires when either side has
fewer components than the loop position needs. -/
def cmpLoop (v1 v2 : List Str) : Nat → Nat → Ordering
  | _, 0 => .eq
  | i, fuel + 1 =>
    if v1.length ≤ i ∨ v2.length ≤ i then compare v1.length v2.length
    else
      match compare (rustParseU32 (v1.getD i [])) (rustParseU32 (v2.getD i [])) with
      | .eq => cmpLoop v1 v2 (i + 1) fuel
      | o => o

/-- Models `compare_semver` (src/helpers.rs lines 161-188): normalize both
tags, fall back to lexicographic comparison unless both normalized tags
match the semver regex, otherwise compare the first three dot-components
numerically with `unwrap_or(0)` semantics. -/
def compare_semver (tag1 tag2 : Str) : Ordering :=
  let clean1 := extract_version tag1
  let clean2 := extract_version tag2
  if ¬ (is_semver clean1 ∧ is_semver clean2) then compare clean1 clean2
  else cmpLoop (splitOnChar '.' clean1) (splitOnChar '.' clean2) 0 3

/-- The section-ordering comparator of both renderers (src/main.rs lines
518-526 and 576-584) as a `sortLe` precondition: `Uncategorized` sorts
after everything, other names lexically.  The source comparator returns
`Greater` on the pair (`Uncategorized`, `Uncategorized`); `le` is defined
as true there so that it is total - section keys are distinct, so the pair
arises only between equal elements, whose mutual order is unobservable. -/
def sectionLE (a b : Str) : Bool :=
  if a = uncategorizedName then decide (b = uncategorizedName)
  else if b = uncategorizedName then true
  else decide (a ≤ b)

/-- The sorted section-heading emission order both renderers compute from
the merged map's keys. -/
def sortedSectionNames (names : List Str) : List Str := sortLe sectionLE names

/-- The items of one section of a merged association list (the renderer's
`&merged_sections[section_name]`). -/
def lookup_items (ms : List (Str × List ReleaseNoteItem)) (sec : Str) :
    List ReleaseNoteItem :=
  ((ms.find? (fun p => p.1 = sec)).map (·.2)).getD []

/-- The distinct `(version, date)` group keys of a section's items (the keys
of the renderer's grouping `HashMap`). -/
def group_keys (items : List ReleaseNoteItem) : List (Str × Int) :=
  (items.map (fun it => (it.version, it.date))).dedup

/-- The group comparator of `generate_markdown` (line 545,
`b.0.1.cmp(&a.0.1)`) as a `sortLe` precondition: newest date first; two
groups with equal dates tie, so their emitted order is the (seeded)
pre-sort hash order. -/
def group_le (a b : Str × Int) : Bool := decide (b.2 ≤ a.2)

/-- One `(version, date)` block of `generate_markdown`: the third-level
heading, the group's content lines in arrival order, then a blank line. -/
def render_group (items : List ReleaseNoteItem) (k : Str × Int) : Str :=
  "### ".toList ++ k.1 ++ " (".toList ++ formatYmd k.2 ++ ")\n\n".toList ++
    (items.filter (fun it => it.version = k.1 ∧ it.date = k.2)).flatMap
      (fun it => it.content ++ ['\n']) ++
    ['\n']

/-- Models `generate_markdown` (src/main.rs lines 510-565).  `secOrd` is the
iteration order of `merged_sections.keys()` and `grpOrd sec` the iteration
order of the per-section grouping `HashMap` - both arbitrary in the source,
passed here explicitly (see `validSecOrd` / `validGrpOrd`). -/
def generate_markdown (ms : List (Str × List ReleaseNoteItem)) (secOrd : List Str)
    (grpOrd : Str → List (Str × Int)) : Str :=
  "# Aggregated Release Notes\n\n".toList ++
    (sortedSectionNames secOrd).flatMap (fun sec =>
      "## ".toList ++ sec ++ "\n\n".toList ++
        (sortLe group_le (grpOrd sec)).flatMap (render_group (lookup_items ms sec)))

/-- A hash-iteration order of the merged map's keys: some permutation of
them. -/
abbrev validSecOrd (keys : List Str) (secOrd : List Str) : Prop := secOrd.Perm keys

/-- A hash-iteration order of every section's grouping map: some
permutation of its distinct group keys. -/
abbrev validGrpOrd (ms : List (Str × List ReleaseNoteItem))
    (grpOrd : Str → List (Str × Int)) : Prop :=
  ∀ sec ∈ ms.map (·.1), (grpOrd sec).Perm (group_keys (lookup_items ms sec))

/-- Rust `Vec<String>::join(", ")`. -/
def joinCommaSpace : List Str → Str
  | [] => []
  | [x] => x
  | x :: xs => x ++ ", ".toList ++ joinCommaSpace xs

/-- Lexicographic comparator on strings as a `sortLe` precondition
(Rust `String::cmp`, used by `sources.sort()`). -/
def strLE (a b : Str) : Bool := decide (a ≤ b)

/-- The items of one section of the heading-merged association list. -/
def lookup_hitems (ms : List (Str × List MergedHeadingItem)) (sec : Str) :
    List MergedHeadingItem :=
  ((ms.find? (fun p => p.1 = sec)).map (·.2)).getD []

/-- One item of `generate_markdown_merged_headings`: the content line and
its provenance annotation (all sources sorted lexically when more than one,
the single source otherwise, a bare blank line when none). -/
def render_heading_item (it : MergedHeadingItem) : Str :=
  it.content ++ ['\n'] ++
    (if 2 ≤ it.sources.length then
      "*(Present in versions: ".toList ++ joinCommaSpace (sortLe strLE it.sources) ++
        ")*\n\n".toList
    else if !it.sources.isEmpty then
      "*(From version: ".toList ++ it.sources.headD [] ++ ")*\n\n".toList
    else ['\n'])

/-- Models `generate_markdown_merged_headings` (src/main.rs lines 568-620).
`secOrd` is the iteration order of `merged_sections.keys()`; the per-section
item order was already canonicalized by the merger's sort. -/
def generate_markdown_merged_headings (ms : List (Str × List MergedHeadingItem))
    (secOrd : List Str) : Str :=
  "# Aggregated Release Notes (Merged by Heading)\n\n".toList ++
    (sortedSectionNames secOrd).flatMap (fun sec =>
      "## ".toList ++ sec ++ "\n\n".toList ++
        (lookup_hitems ms sec).flatMap render_heading_item ++ ['\n'])

/-- The version-separated merge-and-render pipeline on selected records,
seeded with the two hash-iteration orders its output can depend on. -/
def pipeline_version_separated (rs : List Release) (secOrd : List Str)
    (grpOrd : Str → List (Str × Int)) : Except AggError Str :=
  (merge_release_notes rs).map (fun ms => generate_markdown ms secOrd grpOrd)

/-- The heading-merged merge-and-render pipeline on selected records, seeded
with the key hash-iteration order. -/
def pipeline_merged_headings (rs : List Release) (secOrd : List Str) : Str :=
  generate_markdown_merged_headings (merge_release_notes_by_heading rs) secOrd

/-! Generic order facts about the comparators, and a uniqueness lemma for
sorted permutations used to discharge hash-order independence. -/

theorem sectionLE_trans (a b c : Str) (h1 : sectionLE a b = true) (h2 : sectionLE b c = true) :
    sectionLE a c = true := by
  unfold sectionLE at *
  by_cases ha : a = uncategorizedName <;> by_cases hb : b = uncategorizedName <;>
    by_cases hc : c = uncategorizedName <;> simp_all
  exact le_trans h1 h2

theorem sectionLE_total (a b : Str) : (sectionLE a b || sectionLE b a) = true := by
  unfold sectionLE
  by_cases ha : a = uncategorizedName <;> by_cases hb : b = uncategorizedName <;> simp_all
  exact le_total a b

theorem sectionLE_antisym (a b : Str) (h1 : sectionLE a b = true) (h2 : sectionLE b a = true) :
    a = b := by
  unfold sectionLE at *
  by_cases ha : a = uncategorizedName <;> by_cases hb : b = uncategorizedName <;> simp_all
  exact le_antisymm h1 h2

theorem heading_item_le_trans (a b c : MergedHeadingItem) (h1 : heading_item_le a b = true)
    (h2 : heading_item_le b c = true) : heading_item_le a c = true := by
  unfold heading_item_le at *
  simp only [Bool.or_eq_true, Bool.and_eq_true, decide_eq_true_eq] at *
  rcases h1 with h1 | ⟨h1, h1'⟩ <;> rcases h2 with h2 | ⟨h2, h2'⟩
  · exact Or.inl (by omega)
  · exact Or.inl (by omega)
  · exact Or.inl (by omega)
  · exact Or.inr ⟨by omega, le_trans h1' h2'⟩

theorem heading_item_le_total (a b : MergedHeadingItem) :
    (heading_item_le a b || heading_item_le b a) = true := by
  unfold heading_item_le
  simp only [Bool.or_eq_true, Bool.and_eq_true, decide_eq_true_eq]
  rcases lt_trichotomy a.sources.length b.sources.length with h | h | h
  · exact Or.inr (Or.inl h)
  · rcases le_total a.content b.content with hc | hc
    · exact Or.inl (Or.inr ⟨h.symm, hc⟩)
    · exact Or.inr (Or.inr ⟨h, hc⟩)
  · exact Or.inl (Or.inl h)

theorem dateDescLE_trans (a b c : Release) (h1 : dateDescLE a b = true)
    (h2 : dateDescLE b c = true) : dateDescLE a c = true := by
  simp only [dateDescLE, decide_eq_true_eq] at *
  exact le_trans h2 h1

theorem dateDescLE_total (a b : Release) : (dateDescLE a b || dateDescLE b a) = true := by
  simp only [dateDescLE, Bool.or_eq_true, decide_eq_true_eq]
  exact (le_total (dateKey b) (dateKey a)).imp id id

theorem group_le_trans (a b c : Str × Int) (h1 : group_le a b = true)
    (h2 : group_le b c = true) : group_le a c = true := by
  simp only [group_le, decide_eq_true_eq] at *
  exact le_trans h2 h1

theorem group_le_total (a b : Str × Int) : (group_le a b || group_le b a) = true := by
  simp only [group_le, Bool.or_eq_true, decide_eq_true_eq]
  exact (le_total b.2 a.2).imp id id

/-- Two sorted permutations of each other are equal as soon as the order is
antisymmetric on the elements involved (the order need not be globally
antisymmetric). -/
theorem eq_of_perm_of_pairwise_le {α : Type} {le : α → α → Bool} :
    ∀ {l1 l2 : List α}, l1.Perm l2 →
      List.Pairwise (fun a b => le a b = true) l1 →
      List.Pairwise (fun a b => le a b = true) l2 →
      (∀ a ∈ l1, ∀ b ∈ l1, le a b = true → le b a = true → a = b) →
      l1 = l2
  | [], l2, hp, _, _, _ => hp.nil_eq
  | a :: t1, l2, hp, hs1, hs2, hanti => by
    have ha2 : a ∈ l2 := hp.mem_iff.mp (List.mem_cons_self a t1)
    match l2, hs2 with
    | b :: t2, hs2 =>
      have hb1 : b ∈ a :: t1 := hp.symm.mem_iff.mp (List.mem_cons_self b t2)
      have hab : a = b := by
        rcases List.mem_cons.mp ha2 with h | h
        · exact h
        rcases List.mem_cons.mp hb1 with h' | h'
        · exact h'.symm
        exact hanti a (List.mem_cons_self a t1) b (List.mem_cons.mpr (Or.inr h'))
          ((List.pairwise_cons.mp hs1).1 b h') ((List.pairwise_cons.mp hs2).1 a h)
      subst hab
      have hpt : t1.Perm t2 := (List.perm_cons a).mp hp
      have := eq_of_perm_of_pairwise_le hpt (List.pairwise_cons.mp hs1).2
        (List.pairwise_cons.mp hs2).2
        (fun x hx y hy h1 h2 => hanti x (List.mem_cons.mpr (Or.inr hx))
          y (List.mem_cons.mpr (Or.inr hy)) h1 h2)
      rw [this]

/-! Facts about the positional slices of `filter_releases_by_range`. -/

theorem sliceEnumFrom (l : List Release) : ∀ (n lo hi : Nat),
    ((List.enumFrom n l).filter (fun p => lo ≤ p.1 ∧ p.1 ≤ hi)).map (·.2) =
      (l.drop (lo - n)).take (hi + 1 - max lo n) := by
  induction l with
  | nil => intro n lo hi; simp
  | cons x xs ih =>
    intro n lo hi
    rw [List.enumFrom_cons, List.filter_cons]
    by_cases h1 : lo ≤ n ∧ n ≤ hi
    · rw [if_pos (decide_eq_true h1), List.map_cons, ih (n + 1) lo hi]
      have e1 : lo - (n + 1) = 0 := by omega
      have e2 : lo - n = 0 := by omega
      have e3 : max lo (n + 1) = n + 1 := by omega
      have e4 : max lo n = n := by omega
      have e5 : hi + 1 - n = (hi - n) + 1 := by omega
      have e6 : hi + 1 - (n + 1) = hi - n := by omega
      rw [e1, e2, e3, e4, e5, e6]
      simp
    · rw [if_neg (by simpa using h1), ih (n + 1) lo hi]
      rcases Nat.lt_or_ge n lo with hcase | hcase
      · have e1 : lo - n = (lo - (n + 1)) + 1 := by omega
        have e2 : max lo (n + 1) = max lo n := by omega
        rw [e1, e2, List.drop_succ_cons]
      · have e3 : hi + 1 - max lo (n + 1) = 0 := by omega
        have e4 : hi + 1 - max lo n = 0 := by omega
        simp [e3, e4]

theorem slice_between_eq (rs : List Release) (lo hi : Nat) :
    slice_between rs lo hi = (rs.drop lo).take (hi + 1 - lo) := by
  unfold slice_between
  rw [List.enum_eq_enumFrom, sliceEnumFrom rs 0 lo hi]
  simp

theorem position_lt_length (tag : Str) (rs : List Release) : ∀ (i : Nat),
    position tag rs = some i → i < rs.length := by
  induction rs with
  | nil => intro i h; simp [position] at h
  | cons r rs ih =>
    intro i h
    simp only [position] at h
    split at h
    · cases h; simp
    · rw [Option.map_eq_some'] at h
      obtain ⟨j, hj, rfl⟩ := h
      have := ih j hj
      simp only [List.length_cons]
      omega

/-- C10: range selection with neither a start tag nor an end tag succeeds
and returns the full input record list unchanged - same records, same
order - rather than failing. -/
theorem c10_range_with_no_tags_returns_input (rs : List Release) :
    filter_releases_by_range rs none none = .ok rs := rfl

/-- C6: range selection with both tags present returns exactly the
inclusive slice of the input list between the lower and the higher of the
two positional indices, in the original order; and when start and end name
the same tag, exactly one record is returned. -/
theorem c6_range_both_tags_inclusive_slice (rs : List Release) (s e : Str) (i j : Nat)
    (hs : position s rs = some i) (he : position e rs = some j) :
    filter_releases_by_range rs (some s) (some e) =
        .ok ((rs.drop (min i j)).take (max i j + 1 - min i j)) ∧
      (s = e → ∃ r, filter_releases_by_range rs (some s) (some e) = .ok [r]) := by
  have hmain : filter_releases_by_range rs (some s) (some e) =
      .ok ((rs.drop (min i j)).take (max i j + 1 - min i j)) := by
    simp only [filter_releases_by_range, hs, he, slice_between_eq]
    rcases Nat.le_total i j with hle | hle
    · have h1 : min i j = i := by omega
      have h2 : max i j = j := by omega
      simp [hle, h1, h2]
    · rcases Nat.lt_or_ge j i with hlt | hge
      · have h1 : min i j = j := by omega
        have h2 : max i j = i := by omega
        have h3 : ¬ i ≤ j := by omega
        simp [h3, h1, h2]
      · have hij : i = j := by omega
        subst hij
        simp
  refine ⟨hmain, fun hse => ?_⟩
  subst hse
  rw [hs] at he
  cases he
  have hlt : i < rs.length := position_lt_length s rs i hs
  have hone : max i i + 1 - min i i = 1 := by omega
  rw [hmain, hone]
  have hd : rs.drop (min i i) ≠ [] := by
    intro hnil
    have := congrArg List.length hnil
    simp at this
    omega
  cases hdrop : rs.drop (min i i) with
  | nil => exact absurd hdrop hd
  | cons a t => exact ⟨a, by simp⟩

/-! Invariants of the section parser's line scan. -/

theorem parseLines_cons_some (l : Str) (ls : List Str) (cur h : Str)
    (acc : List (Str × List Str)) (hh : headingName? l = some h) :
    parseLines (l :: ls) cur acc = parseLines ls h (insertSection h acc) := by
  simp [parseLines, hh]

theorem parseLines_cons_none_ne (l : Str) (ls : List Str) (cur : Str)
    (acc : List (Str × List Str)) (h1 : headingName? l = none) (h2 : trimStr l ≠ []) :
    parseLines (l :: ls) cur acc = parseLines ls cur (appendToSection cur l acc) := by
  simp [parseLines, h1, h2]

theorem parseLines_cons_none_blank (l : Str) (ls : List Str) (cur : Str)
    (acc : List (Str × List Str)) (h1 : headingName? l = none) (h2 : trimStr l = []) :
    parseLines (l :: ls) cur acc = parseLines ls cur acc := by
  simp [parseLines, h1, h2]

theorem insertSection_content (name : Str) (acc : List (Str × List Str))
    (hinv : ∀ p ∈ acc, ∀ l ∈ p.2, headingName? l = none) :
    ∀ p ∈ insertSection name acc, ∀ l ∈ p.2, headingName? l = none := by
  intro q hq l' hl'
  unfold insertSection at hq
  split at hq
  · exact hinv q hq l' hl'
  · rcases List.mem_append.mp hq with hq | hq
    · exact hinv q hq l' hl'
    · simp at hq
      rw [hq] at hl'
      simp at hl'

theorem parseLines_content : ∀ (ls : List Str) (cur : Str) (acc : List (Str × List Str)),
    (∀ p ∈ acc, ∀ l ∈ p.2, headingName? l = none) →
    ∀ p ∈ parseLines ls cur acc, ∀ l ∈ p.2, headingName? l = none := by
  intro ls
  induction ls with
  | nil => intro cur acc hinv p hp; exact hinv p hp
  | cons l ls ih =>
    intro cur acc hinv p hp
    cases hh : headingName? l with
    | some h =>
      rw [parseLines_cons_some l ls cur h acc hh] at hp
      exact ih h (insertSection h acc) (insertSection_content h acc hinv) p hp
    | none =>
      by_cases hbl : trimStr l = []
      · rw [parseLines_cons_none_blank l ls cur acc hh hbl] at hp
        exact ih cur acc hinv p hp
      · rw [parseLines_cons_none_ne l ls cur acc hh hbl] at hp
        refine ih cur (appendToSection cur l acc) ?_ p hp
        intro q hq l' hl'
        unfold appendToSection at hq
        rw [List.mem_map] at hq
        obtain ⟨q0, hq0, hq0eq⟩ := hq
        by_cases hc : q0.1 = cur
        · rw [if_pos hc] at hq0eq
          rw [← hq0eq] at hl'
          simp only at hl'
          rcases List.mem_append.mp hl' with h' | h'
          · exact hinv q0 hq0 l' h'
          · simp at h'
            rw [h']
            exact hh
        · rw [if_neg hc] at hq0eq
          rw [← hq0eq] at hl'
          exact hinv q0 hq0 l' hl'

theorem parseLines_all_empty : ∀ (ls : List Str) (cur : Str) (acc : List (Str × List Str)),
    (∀ p ∈ acc, p.2 = []) →
    (∀ l ∈ ls, headingName? l = none → trimStr l = []) →
    ∀ p ∈ parseLines ls cur acc, p.2 = [] := by
  intro ls
  induction ls with
  | nil => intro cur acc hinv _ p hp; exact hinv p hp
  | cons l ls ih =>
    intro cur acc hinv hblank p hp
    cases hh : headingName? l with
    | some h =>
      rw [parseLines_cons_some l ls cur h acc hh] at hp
      refine ih h (insertSection h acc) ?_ (fun x hx => hblank x (List.mem_cons_of_mem l hx)) p hp
      intro q hq
      unfold insertSection at hq
      split at hq
      · exact hinv q hq
      · rcases List.mem_append.mp hq with hq | hq
        · exact hinv q hq
        · simp at hq
          simp [hq]
    | none =>
      have hbl : trimStr l = [] := hblank l (List.mem_cons_self l ls) hh
      rw [parseLines_cons_none_blank l ls cur acc hh hbl] at hp
      exact ih cur acc hinv (fun x hx => hblank x (List.mem_cons_of_mem l hx)) p hp

/-- C4: every section key present in the parser's output has at least one
content line; a body whose non-blank lines are all headings yields an empty
section index; and heading lines are never retained as content. -/
theorem c4_parse_release_notes_invariants (body : Str) :
    (∀ p ∈ parse_release_notes body, p.2 ≠ []) ∧
      ((∀ l ∈ rustLines body, trimStr l ≠ [] → (headingName? l).isSome) →
        parse_release_notes body = []) ∧
      (∀ p ∈ parse_release_notes body, ∀ l ∈ p.2, headingName? l = none) := by
  refine ⟨?_, ?_, ?_⟩
  · intro p hp
    have := List.of_mem_filter hp
    simpa using this
  · intro hblank
    unfold parse_release_notes
    rw [List.filter_eq_nil_iff]
    intro p hp
    have : p.2 = [] := by
      refine parseLines_all_empty (rustLines body) uncategorizedName
        [(uncategorizedName, [])] (by simp) ?_ p hp
      intro l hl hn
      by_contra hne
      have := hblank l hl hne
      rw [hn] at this
      simp at this
    simp [this]
  · intro p hp
    have hp' : p ∈ parseLines (rustLines body) uncategorizedName
        [(uncategorizedName, [])] := (List.mem_filter.mp hp).1
    exact parseLines_content (rustLines body) uncategorizedName
      [(uncategorizedName, [])] (by simp) p hp'

/-- Witness for C4 at a concrete body consisting only of heading lines and
blank lines: the parsed index is empty. -/
theorem c4_witness :
    parse_release_notes "# A\n\n## B\n###### C".toList = [] :=
  (c4_parse_release_notes_invariants "# A\n\n## B\n###### C".toList).2.1 (by decide)

/-! Metatheory of the stable insertion sort `sortLe`. -/

theorem mem_insertLe {α : Type} (le : α → α → Bool) (x : α) :
    ∀ (l : List α) (y : α), y ∈ insertLe le x l ↔ y = x ∨ y ∈ l := by
  intro l
  induction l with
  | nil => intro y; simp [insertLe]
  | cons z zs ih =>
    intro y
    unfold insertLe
    split
    · simp
    · simp only [List.mem_cons, ih y]
      tauto

theorem insertLe_perm {α : Type} (le : α → α → Bool) (x : α) :
    ∀ (l : List α), (insertLe le x l).Perm (x :: l) := by
  intro l
  induction l with
  | nil => simp [insertLe]
  | cons y ys ih =>
    unfold insertLe
    split
    · exact List.Perm.refl _
    · exact (List.Perm.cons y ih).trans (List.Perm.swap x y ys)

theorem sortLe_perm {α : Type} (le : α → α → Bool) :
    ∀ (l : List α), (sortLe le l).Perm l := by
  intro l
  induction l with
  | nil => simp [sortLe]
  | cons x xs ih =>
    exact (insertLe_perm le x (sortLe le xs)).trans (List.Perm.cons x ih)

theorem mem_sortLe {α : Type} (le : α → α → Bool) (l : List α) (y : α) :
    y ∈ sortLe le l ↔ y ∈ l := (sortLe_perm le l).mem_iff

theorem pairwise_insertLe {α : Type} (le : α → α → Bool)
    (htrans : ∀ a b c, le a b = true → le b c = true → le a c = true)
    (htotal : ∀ a b, (le a b || le b a) = true) (x : α) :
    ∀ (l : List α), List.Pairwise (fun a b => le a b = true) l →
      List.Pairwise (fun a b => le a b = true) (insertLe le x l) := by
  intro l
  induction l with
  | nil => intro _; simp [insertLe]
  | cons y ys ih =>
    intro hp
    rcases List.pairwise_cons.mp hp with ⟨hy, hys⟩
    by_cases hxy : le x y = true
    · have he : insertLe le x (y :: ys) = x :: y :: ys := by simp [insertLe, hxy]
      rw [he]
      refine List.pairwise_cons.mpr ⟨?_, hp⟩
      intro z hz
      rcases List.mem_cons.mp hz with rfl | hz
      · exact hxy
      · exact htrans x y z hxy (hy z hz)
    · have he : insertLe le x (y :: ys) = y :: insertLe le x ys := by simp [insertLe, hxy]
      rw [he]
      refine List.pairwise_cons.mpr ⟨?_, ih hys⟩
      intro z hz
      rcases (mem_insertLe le x ys z).mp hz with hzx | hz
      · rw [hzx]
        have := htotal x y
        simp only [Bool.or_eq_true] at this
        rcases this with h | h
        · exact absurd h hxy
        · exact h
      · exact hy z hz

theorem pairwise_sortLe {α : Type} (le : α → α → Bool)
    (htrans : ∀ a b c, le a b = true → le b c = true → le a c = true)
    (htotal : ∀ a b, (le a b || le b a) = true) :
    ∀ (l : List α), List.Pairwise (fun a b => le a b = true) (sortLe le l) := by
  intro l
  induction l with
  | nil => simp [sortLe]
  | cons x xs ih => exact pairwise_insertLe le htrans htotal x (sortLe le xs) ih

/-- C7: both renderers emit section headings in an order that is a
permutation of the merged map's keys, lexically ascending, except that a
section literally named `Uncategorized` comes after every other section
(both renderers iterate `sortedSectionNames` of their keys). -/
theorem c7_section_order_uncategorized_last (names : List Str) (hnd : names.Nodup) :
    (sortedSectionNames names).Perm names ∧
      List.Pairwise
        (fun a b => a ≠ uncategorizedName ∧ (b = uncategorizedName ∨ a < b))
        (sortedSectionNames names) := by
  have hperm : (sortedSectionNames names).Perm names := sortLe_perm sectionLE names
  refine ⟨hperm, ?_⟩
  have hsorted : List.Pairwise (fun a b => sectionLE a b = true) (sortedSectionNames names) :=
    pairwise_sortLe sectionLE sectionLE_trans sectionLE_total names
  have hnd' : (sortedSectionNames names).Nodup := hperm.symm.nodup hnd
  refine (hsorted.and hnd').imp ?_
  intro a b hab
  rcases hab with ⟨hle, hne⟩
  unfold sectionLE at hle
  by_cases ha : a = uncategorizedName
  · rw [if_pos ha] at hle
    simp only [decide_eq_true_eq] at hle
    exact absurd (ha.trans hle.symm) hne
  · rw [if_neg ha] at hle
    refine ⟨ha, ?_⟩
    by_cases hb : b = uncategorizedName
    · exact Or.inl hb
    · rw [if_neg hb] at hle
      simp only [decide_eq_true_eq] at hle
      exact Or.inr (lt_of_le_of_ne hle hne)

/-- Witness for C7 at concrete section names: `Zeta` sorts lexically after
`Uncategorized`, yet `Uncategorized` is emitted last. -/
theorem c7_witness :
    sortedSectionNames ["Zeta".toList, "Uncategorized".toList, "Alpha".toList] =
        ["Alpha".toList, "Zeta".toList, "Uncategorized".toList] ∧
      (sortedSectionNames ["Zeta".toList, "Uncategorized".toList, "Alpha".toList]).Perm
        ["Zeta".toList, "Uncategorized".toList, "Alpha".toList] ∧
      List.Pairwise
        (fun a b => a ≠ uncategorizedName ∧ (b = uncategorizedName ∨ a < b))
        (sortedSectionNames ["Zeta".toList, "Uncategorized".toList, "Alpha".toList]) :=
  ⟨by decide,
    c7_section_order_uncategorized_last
      ["Zeta".toList, "Uncategorized".toList, "Alpha".toList] (by decide)⟩

/-- C5 counterexample: with releases `v1` (whose `S` section lists `- a`
twice), `v2` and `v3` (whose `S` sections both list `- b`), the item `- b`
has two distinct contributing records while `- a` has one, yet the merger
emits `- a` first: the sort counts source entries with multiplicity
(`sources.len()`), not distinct-appearing sources, so the two items tie at
two entries and the lexical tie-break wins. -/
theorem c5_counterexample :
    merged_heading_items
        [⟨0, "v1".toList, none, some "# S\n- a\n- a".toList, "2023-01-01T00:00:00Z".toList, false⟩,
         ⟨0, "v2".toList, none, some "# S\n- b".toList, "2023-01-02T00:00:00Z".toList, false⟩,
         ⟨0, "v3".toList, none, some "# S\n- b".toList, "2023-01-03T00:00:00Z".toList, false⟩]
        "S".toList =
      [⟨"- a".toList, ["v1".toList, "v1".toList]⟩,
       ⟨"- b".toList, ["v2".toList, "v3".toList]⟩] ∧
    (["v1".toList, "v1".toList] : List Str).dedup.length = 1 ∧
    (["v2".toList, "v3".toList] : List Str).dedup.length = 2 := by decide

/-- C5 as amended: within each section the merger emits items sorted by
total number of source entries (counted with multiplicity, not distinct
contributing records) descending, with the lexically smaller content first
on ties; in particular every later item has at most as many source entries
as any earlier one. -/
theorem c5_amended_heading_sort (rs : List Release) (sec : Str) :
    List.Pairwise
      (fun a b => heading_item_le a b = true ∧ b.sources.length ≤ a.sources.length)
      (merged_heading_items rs sec) := by
  unfold merged_heading_items
  refine (pairwise_sortLe heading_item_le heading_item_le_trans heading_item_le_total _).imp ?_
  intro a b h
  refine ⟨h, ?_⟩
  unfold heading_item_le at h
  simp only [Bool.or_eq_true, Bool.and_eq_true, decide_eq_true_eq] at h
  rcases h with h | ⟨h, _⟩ <;> omega

/-! Membership lemmas for the selector outputs. -/

theorem snd_mem_of_mem_enumFrom : ∀ (l : List Release) (n : Nat) (q : Nat × Release),
    q ∈ List.enumFrom n l → q.2 ∈ l := by
  intro l
  induction l with
  | nil => intro n q h; simp at h
  | cons x xs ih =>
    intro n q h
    rw [List.enumFrom_cons, List.mem_cons] at h
    rcases h with h | h
    · rw [h]; exact List.mem_cons_self x xs
    · exact List.mem_cons_of_mem x (ih (n + 1) q h)

theorem mem_enum_filter_map (l : List Release) (p : Nat × Release → Bool) :
    ∀ r ∈ (l.enum.filter p).map (·.2), r ∈ l := by
  intro r hr
  rw [List.mem_map] at hr
  obtain ⟨q, hq, rfl⟩ := hr
  exact snd_mem_of_mem_enumFrom l 0 q (List.enum_eq_enumFrom ▸ (List.mem_filter.mp hq).1)

theorem sort_by_date_desc_ok_mem (l out : List Release)
    (h : sort_by_date_desc l = .ok out) : ∀ r ∈ out, r ∈ l := by
  unfold sort_by_date_desc at h
  split at h
  · exact Except.noConfusion h
  · injection h with h'
    intro r hr
    exact (mem_sortLe dateDescLE l r).mp (h' ▸ hr)

theorem filter_releases_by_tags_ok_mem (rs : List Release) (tags : List Str)
    (out : List Release) (h : filter_releases_by_tags rs tags = .ok out) :
    ∀ r ∈ out, r ∈ rs := by
  unfold filter_releases_by_tags at h
  split at h
  · exact Except.noConfusion h
  · intro r hr
    have hres : r ∈ resolved_of rs tags := sort_by_date_desc_ok_mem _ _ h r hr
    unfold resolved_of at hres
    rw [List.mem_filterMap] at hres
    obtain ⟨t, _, hf⟩ := hres
    exact List.mem_of_find?_eq_some hf

theorem filter_releases_by_range_ok_mem (rs : List Release) (sTag eTag : Option Str)
    (out : List Release) (h : filter_releases_by_range rs sTag eTag = .ok out) :
    ∀ r ∈ out, r ∈ rs := by
  cases sTag with
  | none =>
    cases eTag with
    | none =>
      simp only [filter_releases_by_range] at h
      injection h with h'
      rw [← h']
      exact fun r hr => hr
    | some e =>
      simp only [filter_releases_by_range] at h
      cases hp : position e rs with
      | none => rw [hp] at h; exact Except.noConfusion h
      | some ei =>
        rw [hp] at h
        injection h with h'
        rw [← h']
        exact mem_enum_filter_map rs _
  | some s =>
    cases eTag with
    | none =>
      simp only [filter_releases_by_range] at h
      cases hp : position s rs with
      | none => rw [hp] at h; exact Except.noConfusion h
      | some si =>
        rw [hp] at h
        injection h with h'
        rw [← h']
        exact mem_enum_filter_map rs _
    | some e =>
      simp only [filter_releases_by_range] at h
      cases hps : position s rs with
      | none => rw [hps] at h; exact Except.noConfusion h
      | some si =>
        rw [hps] at h
        cases hpe : position e rs with
        | none => rw [hpe] at h; exact Except.noConfusion h
        | some ei =>
          rw [hpe] at h
          injection h with h'
          rw [← h']
          unfold slice_between
          exact mem_enum_filter_map rs _

/-- C1 counterexample: the Selector itself performs no prerelease
filtering - explicit-list selection over an input list that still contains
a prerelease record returns that record even though prerelease inclusion
was not requested anywhere in the Selector's inputs. -/
theorem c1_counterexample :
    filter_releases_by_tags
        [⟨0, "v1".toList, none, none, "2023-01-01T00:00:00Z".toList, true⟩]
        ["v1".toList] =
      .ok [⟨0, "v1".toList, none, none, "2023-01-01T00:00:00Z".toList, true⟩] ∧
    (⟨0, "v1".toList, none, none, "2023-01-01T00:00:00Z".toList, true⟩ : Release).prerelease
      = true := by decide

/-- C1 as amended: prerelease records are dropped by the fetch stage
(before the date sort), not re-dropped by the Selector; consequently, on the
pipeline's actual inputs - a list produced by the fetch stage with
prerelease inclusion not requested - explicit-list selection and range
selection never return a prerelease record. -/
theorem c1_amended_prerelease_filtering (raw rs : List Release) (tags : List Str)
    (sTag eTag : Option Str) (hf : fetch_filter_sort raw false = .ok rs) :
    (∀ out, filter_releases_by_tags rs tags = .ok out →
      ∀ r ∈ out, r.prerelease = false) ∧
    (∀ out, filter_releases_by_range rs sTag eTag = .ok out →
      ∀ r ∈ out, r.prerelease = false) := by
  have hrs : ∀ r ∈ rs, r.prerelease = false := by
    have hf' : sort_by_date_desc (raw.filter (fun r => !r.prerelease)) = .ok rs := hf
    intro r hr
    have := sort_by_date_desc_ok_mem _ _ hf' r hr
    have := List.of_mem_filter this
    simpa using this
  constructor
  · intro out hout r hr
    exact hrs r (filter_releases_by_tags_ok_mem rs tags out hout r hr)
  · intro out hout r hr
    exact hrs r (filter_releases_by_range_ok_mem rs sTag eTag out hout r hr)

/-- Witness for C1 as amended: a raw list with one prerelease and one
normal release; after the fetch-stage filter, explicit selection of the
surviving tag returns no prerelease record. -/
theorem c1_witness :
    (⟨0, "v2".toList, none, none, "2023-01-02T00:00:00Z".toList, false⟩ : Release).prerelease
      = false :=
  (c1_amended_prerelease_filtering
      [⟨0, "v1".toList, none, none, "2023-01-01T00:00:00Z".toList, true⟩,
       ⟨0, "v2".toList, none, none, "2023-01-02T00:00:00Z".toList, false⟩]
      [⟨0, "v2".toList, none, none, "2023-01-02T00:00:00Z".toList, false⟩]
      ["v2".toList] none none (by decide)).1
    [⟨0, "v2".toList, none, none, "2023-01-02T00:00:00Z".toList, false⟩] (by decide)
    ⟨0, "v2".toList, none, none, "2023-01-02T00:00:00Z".toList, false⟩ (by decide)

/-! Error characterization of the version-separated merge. -/

theorem except_map_error_iff {β γ : Type} (x : Except AggError β) (f : β → γ) (e : AggError) :
    x.map f = .error e ↔ x = .error e := by
  cases x <;> simp [Except.map]

theorem parsed_bodies_error_msg : ∀ (rs : List Release) (e : AggError),
    parsed_bodies rs = .error e → e = .unwrapPanic panicDateMsg := by
  intro rs
  induction rs with
  | nil => intro e h; exact Except.noConfusion h
  | cons r rest ih =>
    intro e h
    cases hb : r.body with
    | none =>
      rw [show parsed_bodies (r :: rest) = parsed_bodies rest by simp [parsed_bodies, hb]] at h
      exact ih e h
    | some b =>
      cases hd : parseRFC3339 r.published_at with
      | none =>
        rw [show parsed_bodies (r :: rest) = .error (.unwrapPanic panicDateMsg) by
          simp [parsed_bodies, hb, hd]] at h
        injection h with h'
        exact h'.symm
      | some t =>
        rw [show parsed_bodies (r :: rest) =
            (parsed_bodies rest).map
              (fun l => (r.tag_name, dateOfNanos t, parse_release_notes b) :: l) by
          simp [parsed_bodies, hb, hd]] at h
        exact ih e ((except_map_error_iff _ _ _).mp h)

theorem parsed_bodies_error_iff : ∀ (rs : List Release),
    (∃ m, parsed_bodies rs = .error (.unwrapPanic m)) ↔
      ∃ r ∈ rs, r.body.isSome = true ∧ (parseRFC3339 r.published_at).isNone = true := by
  intro rs
  induction rs with
  | nil => simp [parsed_bodies]
  | cons r rest ih =>
    cases hb : r.body with
    | none =>
      rw [show parsed_bodies (r :: rest) = parsed_bodies rest by simp [parsed_bodies, hb]]
      rw [ih]
      constructor
      · intro ⟨x, hx, hp⟩
        exact ⟨x, List.mem_cons_of_mem r hx, hp⟩
      · intro ⟨x, hx, hp⟩
        rcases List.mem_cons.mp hx with rfl | hx
        · rw [hb] at hp; simp at hp
        · exact ⟨x, hx, hp⟩
    | some b =>
      cases hd : parseRFC3339 r.published_at with
      | none =>
        rw [show parsed_bodies (r :: rest) = .error (.unwrapPanic panicDateMsg) by
          simp [parsed_bodies, hb, hd]]
        constructor
        · intro _
          exact ⟨r, List.mem_cons_self r rest, by simp [hb], by simp [hd]⟩
        · intro _
          exact ⟨panicDateMsg, rfl⟩
      | some t =>
        cases hpb : parsed_bodies rest with
        | error e =>
          rw [show parsed_bodies (r :: rest) =
              (parsed_bodies rest).map
                (fun l => (r.tag_name, dateOfNanos t, parse_release_notes b) :: l) by
            simp [parsed_bodies, hb, hd]]
          rw [hpb]
          have he : e = .unwrapPanic panicDateMsg := parsed_bodies_error_msg rest e hpb
          constructor
          · intro _
            have : ∃ m, parsed_bodies rest = .error (.unwrapPanic m) := ⟨panicDateMsg, by rw [hpb, he]⟩
            obtain ⟨x, hx, hp⟩ := ih.mp this
            exact ⟨x, List.mem_cons_of_mem r hx, hp⟩
          · intro _
            exact ⟨panicDateMsg, by simp [Except.map, he]⟩
        | ok l =>
          rw [show parsed_bodies (r :: rest) =
              (parsed_bodies rest).map
                (fun l => (r.tag_name, dateOfNanos t, parse_release_notes b) :: l) by
            simp [parsed_bodies, hb, hd]]
          rw [hpb]
          simp only [Except.map]
          constructor
          · intro ⟨m, hm⟩
            exact Except.noConfusion hm
          · intro ⟨x, hx, hp⟩
            rcases List.mem_cons.mp hx with rfl | hx
            · rw [hd] at hp; simp at hp
            · obtain ⟨m, hm⟩ := ih.mpr ⟨x, hx, hp⟩
              rw [hpb] at hm
              exact absurd hm (by simp)

/-- C8 counterexample: a consumed record whose publish timestamp does not
parse but whose body is absent is silently skipped - the merge succeeds
with an empty result instead of failing with any tagged date failure. -/
theorem c8_counterexample :
    merge_release_notes
        [⟨0, "v1".toList, none, none, "not-a-date".toList, false⟩] = .ok [] ∧
      (parseRFC3339 "not-a-date".toList).isNone = true := by decide

/-- C8 as amended: an unparseable publish timestamp aborts the
version-separated merge via an `unwrap` panic - not a tagged date-parse
failure returned to the caller - and it does so exactly when the offending
record is actually read there, i.e. when it has a body; a bodyless record
with an unparseable timestamp is skipped without any failure.  Every
failure of the merge is such a panic. -/
theorem c8_amended_date_panic (rs : List Release) :
    ((∃ m, merge_release_notes rs = .error (.unwrapPanic m)) ↔
      ∃ r ∈ rs, r.body.isSome = true ∧ (parseRFC3339 r.published_at).isNone = true) ∧
    (∀ e, merge_release_notes rs = .error e → e = .unwrapPanic panicDateMsg) := by
  constructor
  · unfold merge_release_notes
    constructor
    · intro ⟨m, hm⟩
      exact (parsed_bodies_error_iff rs).mp ⟨m, (except_map_error_iff _ _ _).mp hm⟩
    · intro hex
      obtain ⟨m, hm⟩ := (parsed_bodies_error_iff rs).mpr hex
      exact ⟨m, by rw [hm]; rfl⟩
  · intro e he
    exact parsed_bodies_error_msg rs e
      ((except_map_error_iff _ _ _).mp he)

/-- Witness for C8 as amended at a concrete record with a body and an
unparseable timestamp: the merge aborts with the panic error. -/
theorem c8_witness :
    ∃ m, merge_release_notes
        [⟨0, "v1".toList, none, some "# S\nline".toList, "bad".toList, false⟩] =
      .error (.unwrapPanic m) :=
  (c8_amended_date_panic
      [⟨0, "v1".toList, none, some "# S\nline".toList, "bad".toList, false⟩]).1.mpr
    ⟨⟨0, "v1".toList, none, some "# S\nline".toList, "bad".toList, false⟩,
      by decide, by decide, by decide⟩

theorem resolved_length (rs : List Release) : ∀ (tags : List Str),
    (∀ t ∈ tags, (find_release rs t).isSome = true) →
    (resolved_of rs tags).length = tags.length := by
  intro tags
  induction tags with
  | nil => intro _; simp [resolved_of]
  | cons t ts ih =>
    intro h
    cases hf : find_release rs t with
    | none =>
      have := h t (List.mem_cons_self t ts)
      rw [hf] at this
      simp at this
    | some r =>
      unfold resolved_of at *
      rw [List.filterMap_cons, hf]
      simp only [List.length_cons]
      rw [ih (fun x hx => h x (List.mem_cons_of_mem t hx))]

/-- C3 counterexample: explicit-list selection can fail although no
requested tag is absent - both tags resolve here, but the post-resolution
date sort panics on an unparseable publish timestamp. -/
theorem c3_counterexample :
    filter_releases_by_tags
        [⟨0, "v1".toList, none, none, "bad".toList, false⟩,
         ⟨0, "v2".toList, none, none, "2023-01-01T00:00:00Z".toList, false⟩]
        ["v1".toList, "v2".toList] =
      .error (.unwrapPanic panicDateMsg) ∧
    missing_tags_of
        [⟨0, "v1".toList, none, none, "bad".toList, false⟩,
         ⟨0, "v2".toList, none, none, "2023-01-01T00:00:00Z".toList, false⟩]
        ["v1".toList, "v2".toList] = [] := by decide

/-- C3 as amended: explicit-list selection fails with the missing-tags
error exactly when some requested tag is absent, and that failure names all
missing tags together; when every tag resolves and every resolved record's
timestamp parses, it returns one record per requested tag (duplicates
resolved independently, not deduplicated) re-sorted by publish date
descending, discarding input order; but when every tag resolves, at least
two records are selected and some resolved record's timestamp does not
parse, the selection aborts with a panic instead of succeeding. -/
theorem c3_amended_explicit_selection (rs : List Release) (tags : List Str) :
    (missing_tags_of rs tags ≠ [] →
      filter_releases_by_tags rs tags = .error (.missingTags (missing_tags_of rs tags))) ∧
    ((missing_tags_of rs tags = [] ∧
        ∀ r ∈ resolved_of rs tags, (parseRFC3339 r.published_at).isSome = true) →
      ∃ out, filter_releases_by_tags rs tags = .ok out ∧
        out.Perm (resolved_of rs tags) ∧ out.length = tags.length ∧
        List.Pairwise (fun a b => dateKey b ≤ dateKey a) out) ∧
    ((missing_tags_of rs tags = [] ∧ 2 ≤ (resolved_of rs tags).length ∧
        ∃ r ∈ resolved_of rs tags, (parseRFC3339 r.published_at).isNone = true) →
      filter_releases_by_tags rs tags = .error (.unwrapPanic panicDateMsg)) := by
  refine ⟨?_, ?_, ?_⟩
  · intro hm
    unfold filter_releases_by_tags
    rw [if_pos hm]
  · intro ⟨hm, hd⟩
    unfold filter_releases_by_tags
    rw [if_neg (by simp [hm])]
    unfold sort_by_date_desc
    rw [if_neg ?_]
    · refine ⟨sortLe dateDescLE (resolved_of rs tags), rfl, sortLe_perm _ _, ?_, ?_⟩
      · rw [(sortLe_perm dateDescLE (resolved_of rs tags)).length_eq]
        refine resolved_length rs tags ?_
        intro t ht
        have hnt := List.filter_eq_nil_iff.mp hm t ht
        cases hfr : find_release rs t with
        | none => rw [hfr] at hnt; simp at hnt
        | some r => simp
      · refine (pairwise_sortLe dateDescLE dateDescLE_trans dateDescLE_total _).imp ?_
        intro a b h
        simpa [dateDescLE] using h
    · intro ⟨_, hany⟩
      rw [List.any_eq_true] at hany
      obtain ⟨r, hr, hbad⟩ := hany
      have hsome := hd r hr
      rw [Option.isNone_iff_eq_none.mp hbad] at hsome
      simp at hsome
  · intro ⟨hm, hlen, r, hr, hbad⟩
    unfold filter_releases_by_tags
    rw [if_neg (by simp [hm])]
    unfold sort_by_date_desc
    rw [if_pos ⟨hlen, List.any_eq_true.mpr ⟨r, hr, hbad⟩⟩]

/-- Witness for C3 as amended at two concrete tags requested out of input
order: selection succeeds with one record per tag, date-descending. -/
theorem c3_witness :
    ∃ out, filter_releases_by_tags
        [⟨0, "v1".toList, none, none, "2023-01-01T00:00:00Z".toList, false⟩,
         ⟨0, "v2".toList, none, none, "2023-02-01T00:00:00Z".toList, false⟩]
        ["v1".toList, "v2".toList] = .ok out ∧
      out.Perm (resolved_of
        [⟨0, "v1".toList, none, none, "2023-01-01T00:00:00Z".toList, false⟩,
         ⟨0, "v2".toList, none, none, "2023-02-01T00:00:00Z".toList, false⟩]
        ["v1".toList, "v2".toList]) ∧
      out.length = (["v1".toList, "v2".toList] : List Str).length ∧
      List.Pairwise (fun a b => dateKey b ≤ dateKey a) out :=
  (c3_amended_explicit_selection
      [⟨0, "v1".toList, none, none, "2023-01-01T00:00:00Z".toList, false⟩,
       ⟨0, "v2".toList, none, none, "2023-02-01T00:00:00Z".toList, false⟩]
      ["v1".toList, "v2".toList]).2.1 ⟨by decide, by decide⟩

/-- Witness for C6 at a concrete three-record list with the same tag at
both ends of the range: exactly one record is returned. -/
theorem c6_witness :
    ∃ r, filter_releases_by_range
        [⟨0, "a".toList, none, none, "x".toList, false⟩,
         ⟨1, "b".toList, none, none, "y".toList, false⟩,
         ⟨2, "c".toList, none, none, "z".toList, false⟩]
        (some "b".toList) (some "b".toList) = .ok [r] :=
  (c6_range_both_tags_inclusive_slice
      [⟨0, "a".toList, none, none, "x".toList, false⟩,
       ⟨1, "b".toList, none, none, "y".toList, false⟩,
       ⟨2, "c".toList, none, none, "z".toList, false⟩]
      "b".toList "b".toList 1 1 (by decide) (by decide)).2 rfl

/-! Structure of `splitOnChar` over concatenations, and reading digit runs. -/

theorem splitOnChar_ne_nil (sep : Char) : ∀ (s : Str), splitOnChar sep s ≠ [] := by
  intro s
  cases s with
  | nil => simp [splitOnChar]
  | cons c cs =>
    unfold splitOnChar
    split
    · simp
    · cases h : splitOnChar sep cs <;> simp

theorem splitOnChar_cons (sep c : Char) (cs : Str) :
    splitOnChar sep (c :: cs) =
      if c = sep then [] :: splitOnChar sep cs
      else
        match splitOnChar sep cs with
        | s :: ss => (c :: s) :: ss
        | [] => [[c]] := rfl

theorem splitOnChar_append_sep (sep : Char) : ∀ (a b : Str), sep ∉ a →
    splitOnChar sep (a ++ sep :: b) = a :: splitOnChar sep b := by
  intro a
  induction a with
  | nil => intro b _; simp [splitOnChar]
  | cons c cs ih =>
    intro b hmem
    have hc : ¬ c = sep := fun h => hmem (h ▸ List.mem_cons_self c cs)
    have hcs : sep ∉ cs := fun h => hmem (List.mem_cons_of_mem c h)
    rw [List.cons_append, splitOnChar_cons, if_neg hc, ih b hcs]

theorem splitOnChar_append_head (sep : Char) : ∀ (a b : Str), sep ∉ a →
    ∃ h t, splitOnChar sep b = h :: t ∧ splitOnChar sep (a ++ b) = (a ++ h) :: t := by
  intro a
  induction a with
  | nil =>
    intro b _
    cases hb : splitOnChar sep b with
    | nil => exact absurd hb (splitOnChar_ne_nil sep b)
    | cons h t => exact ⟨h, t, rfl, by simp [hb]⟩
  | cons c cs ih =>
    intro b hmem
    have hc : ¬ c = sep := fun h => hmem (h ▸ List.mem_cons_self c cs)
    have hcs : sep ∉ cs := fun h => hmem (List.mem_cons_of_mem c h)
    obtain ⟨h, t, hb, hab⟩ := ih b hcs
    refine ⟨h, t, hb, ?_⟩
    rw [List.cons_append, splitOnChar_cons, if_neg hc, hab]
    rfl

theorem not_dot_mem_of_digits (a : Str) (h : a.all isDigitCh = true) : '.' ∉ a := by
  intro hmem
  have := List.all_eq_true.mp h '.' hmem
  simp [isDigitCh] at this

theorem rustParseU32_digits (s : Str) (hne : s ≠ []) (hd : s.all isDigitCh = true) :
    rustParseU32 s = if digitsVal s < 2 ^ 32 then digitsVal s else 0 := by
  unfold rustParseU32
  cases s with
  | nil => exact absurd rfl hne
  | cons c cs =>
    have hc : isDigitCh c = true := by
      have := List.all_eq_true.mp hd c (List.mem_cons_self c cs)
      exact this
    have hcp : ¬ (c :: cs : Str).headD ' ' = '+' := by
      simp only [List.headD_cons]
      intro h
      rw [h] at hc
      simp [isDigitCh] at hc
    rw [if_neg hcp]
    simp [hd]

theorem rustParseU32_polluted (d : Str) (c : Char) (s' : Str)
    (hdne : d ≠ []) (hd : d.all isDigitCh = true) (hc : isDigitCh c = false) :
    rustParseU32 (d ++ c :: s') = 0 := by
  unfold rustParseU32
  cases d with
  | nil => exact absurd rfl hdne
  | cons x xs =>
    have hx : isDigitCh x = true := List.all_eq_true.mp hd x (List.mem_cons_self x xs)
    have hxp : ¬ ((x :: xs : Str) ++ c :: s').headD ' ' = '+' := by
      simp only [List.cons_append, List.headD_cons]
      intro h
      rw [h] at hx
      simp [isDigitCh] at hx
    rw [if_neg hxp]
    have hall : ((x :: xs : Str) ++ c :: s').all isDigitCh = false := by
      rw [List.all_append]
      simp [hc]
    simp only [hall, Bool.and_false]
    simp

/-- Every successful parse against the semver regex decomposes the input
into its three nonempty digit-run components and a suffix that is empty or
starts with `-` or `+`. -/
theorem ne_nil_of_not_isEmpty (l : Str) (h : l.isEmpty = false) : l ≠ [] := by
  intro hnil
  rw [hnil] at h
  simp at h

/-- Every successful parse against the semver regex decomposes the input
into its three nonempty digit-run components and a suffix that is empty or
starts with `-` or `+`. -/
theorem semverParts_spec (s : Str) (p : SemverParts) (h : semverParts? s = some p) :
    s = p.major ++ '.' :: (p.minor ++ '.' :: (p.patch ++ p.suffix)) ∧
      p.major ≠ [] ∧ p.major.all isDigitCh = true ∧
      p.minor ≠ [] ∧ p.minor.all isDigitCh = true ∧
      p.patch ≠ [] ∧ p.patch.all isDigitCh = true ∧
      (p.suffix = [] ∨ ∃ c s', (c = '-' ∨ c = '+') ∧ p.suffix = c :: s') := by
  unfold semverParts? at h
  cases hr0 : s.dropWhile isDigitCh with
  | nil => rw [hr0] at h; exact Option.noConfusion h
  | cons c1 r1 =>
    rw [hr0] at h
    dsimp only at h
    by_cases hc1 : c1 = '.'
    · rw [if_pos hc1] at h
      cases hr1 : r1.dropWhile isDigitCh with
      | nil => rw [hr1] at h; exact Option.noConfusion h
      | cons c2 r2 =>
        rw [hr1] at h
        dsimp only at h
        by_cases hc2 : c2 = '.'
        · rw [if_pos hc2] at h
          split at h
          next hcond =>
            injection h with hp
            subst hp
            simp only [Bool.and_eq_true, Bool.not_eq_true'] at hcond
            obtain ⟨⟨⟨hne1, hne2⟩, hne3⟩, hsuf⟩ := hcond
            refine ⟨?_, ne_nil_of_not_isEmpty _ hne1, ?_, ne_nil_of_not_isEmpty _ hne2, ?_,
              ne_nil_of_not_isEmpty _ hne3, ?_, ?_⟩
            · conv_lhs => rw [← List.takeWhile_append_dropWhile isDigitCh s]
              rw [hr0, hc1]
              congr 2
              conv_lhs => rw [← List.takeWhile_append_dropWhile isDigitCh r1]
              rw [hr1, hc2]
              congr 2
              exact (List.takeWhile_append_dropWhile isDigitCh r2).symm
            · exact List.all_eq_true.mpr (fun x hx => List.mem_takeWhile_imp hx)
            · exact List.all_eq_true.mpr (fun x hx => List.mem_takeWhile_imp hx)
            · exact List.all_eq_true.mpr (fun x hx => List.mem_takeWhile_imp hx)
            · cases hsufc : r2.dropWhile isDigitCh with
              | nil => exact Or.inl rfl
              | cons c s' =>
                rw [hsufc] at hsuf
                unfold checkSuffix at hsuf
                dsimp only at hsuf
                by_cases hcm : c = '-'
                · exact Or.inr ⟨c, s', Or.inl hcm, rfl⟩
                · rw [if_neg hcm] at hsuf
                  by_cases hcp : c = '+'
                  · exact Or.inr ⟨c, s', Or.inr hcp, rfl⟩
                  · rw [if_neg hcp] at hsuf
                    exact Bool.noConfusion hsuf
          next => exact Option.noConfusion h
        · rw [if_neg hc2] at h
          exact Option.noConfusion h
    · rw [if_neg hc1] at h
      exact Option.noConfusion h

theorem stripV_digit (c : Char) (rest : Str) (hc : isDigitCh c = true) :
    stripV (c :: rest) = c :: rest := by
  unfold stripV
  dsimp only
  rw [if_neg]
  intro h
  rcases h with h | h <;> rw [h] at hc <;> exact absurd hc (by decide)

theorem stripV_semver_self (p : SemverParts) (s : Str)
    (hs : s = p.major ++ '.' :: (p.minor ++ '.' :: (p.patch ++ p.suffix)))
    (hne : p.major ≠ []) (hd : p.major.all isDigitCh = true) : stripV s = s := by
  cases hmaj : p.major with
  | nil => exact absurd hmaj hne
  | cons c rest =>
    have hc : isDigitCh c = true :=
      List.all_eq_true.mp hd c (by rw [hmaj]; exact List.mem_cons_self c rest)
    rw [hs, hmaj, List.cons_append]
    exact stripV_digit c _ hc

theorem cmpLoop_eval_eq (a1 b1 c1 a2 b2 c2 : Str) (t1 t2 : List Str)
    (e0 : rustParseU32 a1 = rustParseU32 a2)
    (e1 : rustParseU32 b1 = rustParseU32 b2)
    (e2 : rustParseU32 c1 = rustParseU32 c2) :
    cmpLoop (a1 :: b1 :: c1 :: t1) (a2 :: b2 :: c2 :: t2) 0 3 = .eq := by
  have key : ∀ n : Nat, compare n n = Ordering.eq := fun n => by simp [Nat.compare_eq_eq]
  have hc0 : ¬ ((a1 :: b1 :: c1 :: t1 : List Str).length ≤ 0 ∨
      (a2 :: b2 :: c2 :: t2 : List Str).length ≤ 0) := by
    simp only [List.length_cons, not_or]
    omega
  have hcc1 : ¬ ((a1 :: b1 :: c1 :: t1 : List Str).length ≤ 1 ∨
      (a2 :: b2 :: c2 :: t2 : List Str).length ≤ 1) := by
    simp only [List.length_cons, not_or]
    omega
  have hcc2 : ¬ ((a1 :: b1 :: c1 :: t1 : List Str).length ≤ 2 ∨
      (a2 :: b2 :: c2 :: t2 : List Str).length ≤ 2) := by
    simp only [List.length_cons, not_or]
    omega
  unfold cmpLoop
  rw [if_neg hc0]
  simp only [List.getD_cons_zero]
  rw [e0, key]
  show cmpLoop _ _ 1 2 = .eq
  unfold cmpLoop
  rw [if_neg hcc1]
  simp only [List.getD_cons_succ, List.getD_cons_zero]
  rw [e1, key]
  show cmpLoop _ _ 2 1 = .eq
  unfold cmpLoop
  rw [if_neg hcc2]
  simp only [List.getD_cons_succ, List.getD_cons_zero]
  rw [e2, key]
  rfl

/-- When the patch component's digit run reads as zero, a trailing suffix
makes no difference to the code's `unwrap_or(0)` read of the third
dot-component. -/
theorem patch_read_zero (p : SemverParts) (hne : p.patch ≠ [])
    (hd : p.patch.all isDigitCh = true) (hz : digitsVal p.patch = 0)
    (hsuf : p.suffix = [] ∨ ∃ c s', (c = '-' ∨ c = '+') ∧ p.suffix = c :: s') :
    ∀ hh tt, splitOnChar '.' p.suffix = hh :: tt → rustParseU32 (p.patch ++ hh) = 0 := by
  intro hh tt hsplit
  rcases hsuf with hnil | ⟨c, s', hcm, hceq⟩
  · rw [hnil, show splitOnChar '.' ([] : Str) = [[]] from rfl] at hsplit
    injection hsplit with hhh _
    rw [← hhh, List.append_nil, rustParseU32_digits _ hne hd, hz]
    simp
  · rw [hceq] at hsplit
    have hcd : ('.' : Char) ∉ ([c] : Str) := by
      intro hm
      rw [List.mem_singleton] at hm
      rcases hcm with h | h <;> rw [h] at hm <;> exact absurd hm (by decide)
    obtain ⟨h', t', _, hsp2⟩ := splitOnChar_append_head '.' [c] s' hcd
    rw [show (([c] : Str) ++ s') = c :: s' from rfl] at hsp2
    rw [hsp2] at hsplit
    injection hsplit with hhh _
    rw [← hhh, show (([c] : Str) ++ h') = c :: h' from rfl]
    exact rustParseU32_polluted p.patch c h' hne hd
      (by rcases hcm with h | h <;> rw [h] <;> decide)

/-- C2 as amended: for tags whose normalized forms match the semver grammar
with equal MAJOR and MINOR numeric values and PATCH numeric value zero,
`compare_semver` returns `Equal` regardless of any `-prerelease` or
`+buildmetadata` suffix (this covers `compare("1.0.0-rc1", "1.0.0")`); the
original claim's unrestricted version fails because a suffix directly after
a nonzero PATCH makes the code read that component as 0. -/
theorem c2_amended_patch_zero_compare_eq (t1 t2 : Str) (p1 p2 : SemverParts)
    (h1 : semverParts? (extract_version t1) = some p1)
    (h2 : semverParts? (extract_version t2) = some p2)
    (hM : digitsVal p1.major = digitsVal p2.major)
    (hmin : digitsVal p1.minor = digitsVal p2.minor)
    (hz1 : digitsVal p1.patch = 0) (hz2 : digitsVal p2.patch = 0) :
    compare_semver t1 t2 = .eq := by
  obtain ⟨hs1, hM1ne, hM1d, hm1ne, hm1d, hp1ne, hp1d, hsuf1⟩ := semverParts_spec _ _ h1
  obtain ⟨hs2, hM2ne, hM2d, hm2ne, hm2d, hp2ne, hp2d, hsuf2⟩ := semverParts_spec _ _ h2
  have hsem1 : is_semver (extract_version t1) = true := by
    unfold is_semver
    rw [stripV_semver_self p1 _ hs1 hM1ne hM1d, h1]
    rfl
  have hsem2 : is_semver (extract_version t2) = true := by
    unfold is_semver
    rw [stripV_semver_self p2 _ hs2 hM2ne hM2d, h2]
    rfl
  obtain ⟨hh1, tt1, hsufsp1, happ1⟩ :=
    splitOnChar_append_head '.' p1.patch p1.suffix (not_dot_mem_of_digits _ hp1d)
  obtain ⟨hh2, tt2, hsufsp2, happ2⟩ :=
    splitOnChar_append_head '.' p2.patch p2.suffix (not_dot_mem_of_digits _ hp2d)
  have hsplit1 : splitOnChar '.' (extract_version t1) =
      p1.major :: p1.minor :: (p1.patch ++ hh1) :: tt1 := by
    rw [hs1, splitOnChar_append_sep '.' p1.major _ (not_dot_mem_of_digits _ hM1d),
        splitOnChar_append_sep '.' p1.minor _ (not_dot_mem_of_digits _ hm1d), happ1]
  have hsplit2 : splitOnChar '.' (extract_version t2) =
      p2.major :: p2.minor :: (p2.patch ++ hh2) :: tt2 := by
    rw [hs2, splitOnChar_append_sep '.' p2.major _ (not_dot_mem_of_digits _ hM2d),
        splitOnChar_append_sep '.' p2.minor _ (not_dot_mem_of_digits _ hm2d), happ2]
  have e0 : rustParseU32 p1.major = rustParseU32 p2.major := by
    rw [rustParseU32_digits _ hM1ne hM1d, rustParseU32_digits _ hM2ne hM2d, hM]
  have e1 : rustParseU32 p1.minor = rustParseU32 p2.minor := by
    rw [rustParseU32_digits _ hm1ne hm1d, rustParseU32_digits _ hm2ne hm2d, hmin]
  have e2 : rustParseU32 (p1.patch ++ hh1) = rustParseU32 (p2.patch ++ hh2) := by
    rw [patch_read_zero p1 hp1ne hp1d hz1 hsuf1 hh1 tt1 hsufsp1,
        patch_read_zero p2 hp2ne hp2d hz2 hsuf2 hh2 tt2 hsufsp2]
  unfold compare_semver
  dsimp only
  rw [if_neg (not_not_intro ⟨hsem1, hsem2⟩), hsplit1, hsplit2]
  exact cmpLoop_eval_eq _ _ _ _ _ _ _ _ e0 e1 e2

/-- C2 counterexample: both tags match the semver grammar with the equal
numeric triple (1, 0, 1), yet `compare_semver` returns `Less`, not `Equal`:
the suffixed patch component `1-rc1` fails the `u32` parse and reads as 0.
So equal MAJOR.MINOR.PATCH triples do not compare equal for every pair,
only e.g. when the shared PATCH is 0. -/
theorem c2_counterexample :
    semverTriple? (extract_version "1.0.1-rc1".toList) = some (1, 0, 1) ∧
      semverTriple? (extract_version "1.0.1".toList) = some (1, 0, 1) ∧
      is_semver (extract_version "1.0.1-rc1".toList) = true ∧
      is_semver (extract_version "1.0.1".toList) = true ∧
      compare_semver "1.0.1-rc1".toList "1.0.1".toList = .lt := by decide

/-- Witness for C2 as amended at the spec's own example pair: the triples
are (1, 0, 0) on both sides and the comparison is `Equal`. -/
theorem c2_witness :
    compare_semver "1.0.0-rc1".toList "1.0.0".toList = .eq :=
  c2_amended_patch_zero_compare_eq "1.0.0-rc1".toList "1.0.0".toList
    ⟨"1".toList, "0".toList, "0".toList, "-rc1".toList⟩
    ⟨"1".toList, "0".toList, "0".toList, []⟩
    (by decide) (by decide) (by decide) (by decide) (by decide) (by decide)

theorem flatMap_congr_mem {α β : Type} (l : List α) (f g : α → List β)
    (h : ∀ a ∈ l, f a = g a) : l.flatMap f = l.flatMap g := by
  induction l with
  | nil => rfl
  | cons x xs ih =>
    rw [List.flatMap_cons, List.flatMap_cons, h x (List.mem_cons_self x xs),
        ih (fun a ha => h a (List.mem_cons_of_mem x ha))]

/-- Any two hash-iteration orders of the same section keys render the same
sorted heading sequence: the section comparator is antisymmetric, so the
sorted permutation is unique. -/
theorem sortedSectionNames_perm_eq (keys so1 so2 : List Str)
    (h1 : so1.Perm keys) (h2 : so2.Perm keys) :
    sortedSectionNames so1 = sortedSectionNames so2 := by
  refine eq_of_perm_of_pairwise_le ?_
    (pairwise_sortLe _ sectionLE_trans sectionLE_total so1)
    (pairwise_sortLe _ sectionLE_trans sectionLE_total so2) ?_
  · exact ((sortLe_perm _ so1).trans h1).trans (((sortLe_perm _ so2).trans h2).symm)
  · intro a _ b _ hab hba
    exact sectionLE_antisym a b hab hba

/-- Any two hash-iteration orders of the same group keys sort to the same
sequence provided no two distinct groups share a date (the comparator only
reads dates, so distinct dates make it antisymmetric on these keys). -/
theorem sorted_groups_eq (keys g1 g2 : List (Str × Int))
    (h1 : g1.Perm keys) (h2 : g2.Perm keys)
    (hdist : List.Pairwise (fun a b => a.2 ≠ b.2) keys) :
    sortLe group_le g1 = sortLe group_le g2 := by
  have hsymm : Symmetric (fun a b : Str × Int => a.2 ≠ b.2) :=
    fun x y h e => h e.symm
  have hne : ∀ a ∈ keys, ∀ b ∈ keys, a ≠ b → a.2 ≠ b.2 :=
    fun a ha b hb hab => (hdist.forall hsymm) ha hb hab
  refine eq_of_perm_of_pairwise_le ?_
    (pairwise_sortLe _ group_le_trans group_le_total g1)
    (pairwise_sortLe _ group_le_trans group_le_total g2) ?_
  · exact ((sortLe_perm _ g1).trans h1).trans (((sortLe_perm _ g2).trans h2).symm)
  · intro a ha b hb hab hba
    have ha' : a ∈ keys := h1.mem_iff.mp ((sortLe_perm _ g1).mem_iff.mp ha)
    have hb' : b ∈ keys := h1.mem_iff.mp ((sortLe_perm _ g1).mem_iff.mp hb)
    by_contra hne'
    simp only [group_le, decide_eq_true_eq] at hab hba
    exact hne a ha' b hb' hne' (le_antisymm hba hab)

/-- C9 counterexample: two releases published on the same UTC day, merged
and rendered by the version-separated pipeline under two valid
hash-iteration orders of the renderer's grouping map, produce different
output bytes - the pipeline is not a function of the record list alone. -/
theorem c9_counterexample :
    merge_release_notes
        [⟨0, "v1".toList, none, some "# S\nca".toList, "2023-01-01T00:00:00Z".toList, false⟩,
         ⟨0, "v2".toList, none, some "# S\ncb".toList, "2023-01-01T05:00:00Z".toList, false⟩] =
      .ok [("S".toList,
            [⟨"ca".toList, "v1".toList, 19358⟩, ⟨"cb".toList, "v2".toList, 19358⟩])] ∧
    validSecOrd
      ([("S".toList,
         [(⟨"ca".toList, "v1".toList, 19358⟩ : ReleaseNoteItem),
          ⟨"cb".toList, "v2".toList, 19358⟩])].map (·.1)) ["S".toList] ∧
    validGrpOrd
      [("S".toList,
        [⟨"ca".toList, "v1".toList, 19358⟩, ⟨"cb".toList, "v2".toList, 19358⟩])]
      (fun sec => if sec = "S".toList
        then [("v1".toList, 19358), ("v2".toList, 19358)] else []) ∧
    validGrpOrd
      [("S".toList,
        [⟨"ca".toList, "v1".toList, 19358⟩, ⟨"cb".toList, "v2".toList, 19358⟩])]
      (fun sec => if sec = "S".toList
        then [("v2".toList, 19358), ("v1".toList, 19358)] else []) ∧
    pipeline_version_separated
        [⟨0, "v1".toList, none, some "# S\nca".toList, "2023-01-01T00:00:00Z".toList, false⟩,
         ⟨0, "v2".toList, none, some "# S\ncb".toList, "2023-01-01T05:00:00Z".toList, false⟩]
        ["S".toList]
        (fun sec => if sec = "S".toList
          then [("v1".toList, 19358), ("v2".toList, 19358)] else []) ≠
      pipeline_version_separated
        [⟨0, "v1".toList, none, some "# S\nca".toList, "2023-01-01T00:00:00Z".toList, false⟩,
         ⟨0, "v2".toList, none, some "# S\ncb".toList, "2023-01-01T05:00:00Z".toList, false⟩]
        ["S".toList]
        (fun sec => if sec = "S".toList
          then [("v2".toList, 19358), ("v1".toList, 19358)] else []) := by decide

/-- C9 as amended: the merge is deterministic, and the rendering is
byte-identical across runs up to hash-iteration order: the heading-merged
pipeline's output never depends on it, and the version-separated pipeline's
output is independent of it whenever no two distinct version groups within
a section share a publish date (with a shared date their block order is the
grouping map's iteration order, see the counterexample). -/
theorem c9_amended_pipeline_determinism (rs : List Release)
    (ms : List (Str × List ReleaseNoteItem)) (secOrd1 secOrd2 : List Str)
    (grpOrd1 grpOrd2 : Str → List (Str × Int))
    (hms : merge_release_notes rs = .ok ms)
    (hso1 : validSecOrd (ms.map (·.1)) secOrd1)
    (hso2 : validSecOrd (ms.map (·.1)) secOrd2)
    (hg1 : validGrpOrd ms grpOrd1) (hg2 : validGrpOrd ms grpOrd2)
    (hdates : ∀ sec ∈ ms.map (·.1),
      List.Pairwise (fun a b => a.2 ≠ b.2) (group_keys (lookup_items ms sec))) :
    pipeline_version_separated rs secOrd1 grpOrd1 =
        pipeline_version_separated rs secOrd2 grpOrd2 ∧
      ∀ so1 so2, validSecOrd ((merge_release_notes_by_heading rs).map (·.1)) so1 →
        validSecOrd ((merge_release_notes_by_heading rs).map (·.1)) so2 →
        pipeline_merged_headings rs so1 = pipeline_merged_headings rs so2 := by
  have hsec : sortedSectionNames secOrd1 = sortedSectionNames secOrd2 :=
    sortedSectionNames_perm_eq (ms.map (·.1)) secOrd1 secOrd2 hso1 hso2
  have hgen : generate_markdown ms secOrd1 grpOrd1 = generate_markdown ms secOrd2 grpOrd2 := by
    unfold generate_markdown
    rw [hsec]
    congr 1
    apply flatMap_congr_mem
    intro sec hmemS
    have hmem : sec ∈ ms.map (·.1) :=
      hso2.mem_iff.mp ((sortLe_perm sectionLE secOrd2).mem_iff.mp hmemS)
    rw [sorted_groups_eq (group_keys (lookup_items ms sec)) (grpOrd1 sec) (grpOrd2 sec)
      (hg1 sec hmem) (hg2 sec hmem) (hdates sec hmem)]
  constructor
  · unfold pipeline_version_separated
    rw [hms]
    simp only [Except.map]
    rw [hgen]
  · intro so1 so2 h1 h2
    unfold pipeline_merged_headings generate_markdown_merged_headings
    rw [sortedSectionNames_perm_eq ((merge_release_notes_by_heading rs).map (·.1))
      so1 so2 h1 h2]

/-- Witness for C9 as amended at two releases on distinct days: the
version-separated pipeline renders identical bytes under two different
grouping orders, and the heading-merged pipeline under two different key
orders. -/
theorem c9_witness :
    pipeline_version_separated
        [⟨0, "v1".toList, none, some "# A\na1".toList, "2023-01-01T00:00:00Z".toList, false⟩,
         ⟨0, "v2".toList, none, some "# B\nb1".toList, "2023-01-02T00:00:00Z".toList, false⟩]
        ["A".toList, "B".toList]
        (fun sec => if sec = "A".toList then [("v1".toList, 19358)]
          else if sec = "B".toList then [("v2".toList, 19359)] else []) =
      pipeline_version_separated
        [⟨0, "v1".toList, none, some "# A\na1".toList, "2023-01-01T00:00:00Z".toList, false⟩,
         ⟨0, "v2".toList, none, some "# B\nb1".toList, "2023-01-02T00:00:00Z".toList, false⟩]
        ["B".toList, "A".toList]
        (fun sec => if sec = "A".toList then [("v1".toList, 19358)]
          else if sec = "B".toList then [("v2".toList, 19359)] else []) :=
  (c9_amended_pipeline_determinism
      [⟨0, "v1".toList, none, some "# A\na1".toList, "2023-01-01T00:00:00Z".toList, false⟩,
       ⟨0, "v2".toList, none, some "# B\nb1".toList, "2023-01-02T00:00:00Z".toList, false⟩]
      [("A".toList, [⟨"a1".toList, "v1".toList, 19358⟩]),
       ("B".toList, [⟨"b1".toList, "v2".toList, 19359⟩])]
      ["A".toList, "B".toList] ["B".toList, "A".toList]
      (fun sec => if sec = "A".toList then [("v1".toList, 19358)]
        else if sec = "B".toList then [("v2".toList, 19359)] else [])
      (fun sec => if sec = "A".toList then [("v1".toList, 19358)]
        else if sec = "B".toList then [("v2".toList, 19359)] else [])
      (by decide) (by decide) (by decide) (by decide) (by decide) (by decide)).1
